import Mathlib

/-!
# Klepto: anonymiser relay, MySQL reader listings and MySQL dumper

A shallow embedding of

* `pkg/anonymiser/anonymiser.go` (`ReadTable` and its relay stage),
* `pkg/reader/mysql/reader.go` (`GetTables`, `GetColumns`),
* `pkg/dumper/mysql/dumper.go` (`toStringValue`, the encoder of
  `insertIntoTable` with its buffered CSV writer and pipe, `dumpStructure`,
  `dumpTables`, `Dump`),

followed by the properties proved about them.
-/

namespace Klepto

/-! ## Data model -/

/-- A Go `interface{}` as it travels in a `database.Row`, by dynamic type.
The first eight constructors and `nilPtr`/`ptr` are the dynamic types named by
the type switch of `toStringValue`; `other` stands for every remaining dynamic
type (its payload is the Go type name).  `float64` carries the IEEE bit pattern
and `time` an instant; both are only ever rendered by library formatters.
`nilPtr` is the typed nil `(*interface{})(nil)`, `ptr v` a non-nil
`*interface{}` whose pointee is `v`. -/
inductive Value where
  | nil
  | uint8 (n : Nat)
  | int64 (i : Int)
  | float64 (bits : Nat)
  | bool (b : Bool)
  | string (s : String)
  | bytes (b : List Char)
  | time (t : Nat)
  | nilPtr
  | ptr (target : Value)
  | other (goType : String)
  deriving DecidableEq, Repr

/-- A `database.Row`: a Go `map[string]interface{}` from column name to value.
`none` means the key is not in the map. -/
abbrev Row := String → Option Value

/-- The map assignment `row[column] = v`. -/
def Row.set (row : Row) (column : String) (v : Value) : Row :=
  fun k => if k = column then some v else row k

/-- The map read `row[col]`: a missing key reads as the zero value of
`interface{}`, the nil interface. -/
def Row.index (row : Row) (col : String) : Value :=
  match row col with
  | some v => v
  | none => Value.nil

/-- The empty Go map. -/
def Row.empty : Row := fun _ => none

/-! ## `strings.HasPrefix` and `strings.TrimPrefix` -/

/-- Go `strings.HasPrefix(s, pre)`: `len(s) >= len(pre) && s[:len(pre)] == pre`. -/
def HasPrefix (s pre : String) : Bool :=
  pre.data.isPrefixOf s.data

/-- Go `strings.TrimPrefix(s, pre)`: `s[len(pre):]` when `s` starts with `pre`,
otherwise `s`. -/
def TrimPrefix (s pre : String) : String :=
  if HasPrefix s pre then String.mk (s.data.drop pre.data.length) else s

/-! ## `pkg/anonymiser/anonymiser.go` -/

/-- The constant `literalPrefix`. -/
def literalPrefix : String := "literal:"

/-- A registered generator of the `Functions` table.  The Go value is called
through reflection with no arguments and yields a fresh string on every call;
the source of freshness is threaded explicitly as a generator state. -/
abbrev Faker := Nat → String × Nat

/-- The fields of `config.Table` read by the anonymiser.  `Anonymise` is a Go
`map[string]string` (column name to generator spec), listed in the order in
which `range` happens to visit it. -/
structure Table where
  Name : String
  Anonymise : List (String × String)

/-- One iteration of `for name, faker := range Functions` for the column
`column` whose spec is `fakerType`. -/
def fakerStep (fakerType column : String) (st : Row × Nat) (entry : String × Faker) :
    Row × Nat :=
  if fakerType ≠ entry.1 then st
  else (st.1.set column (Value.string (entry.2 st.2).1), (entry.2 st.2).2)

/-- One iteration of `for column, fakerType := range table.Anonymise`. -/
def anonymiseStep (Functions : List (String × Faker)) (st : Row × Nat)
    (entry : String × String) : Row × Nat :=
  if HasPrefix entry.2 literalPrefix then
    (st.1.set entry.1 (Value.string (TrimPrefix entry.2 literalPrefix)), st.2)
  else
    Functions.foldl (fakerStep entry.2 entry.1) st

/-- The body of the relay loop for one row: the whole
`for column, fakerType := range table.Anonymise` loop. -/
def anonymiseRow (Functions : List (String × Faker)) (anon : List (String × String))
    (st : Row × Nat) : Row × Nat :=
  anon.foldl (anonymiseStep Functions) st

/-- The relay goroutine: every row received on `rawChan` is rewritten and sent
on `rowChan`, in order, until `rawChan` is closed. -/
def relay (Functions : List (String × Faker)) (anon : List (String × String)) :
    List Row → Nat → List Row
  | [], _ => []
  | row :: rest, seed =>
    (anonymiseRow Functions anon (row, seed)).1 ::
      relay Functions anon rest (anonymiseRow Functions anon (row, seed)).2

/-- What the wrapped reader's `ReadTable` does for one table: the rows it sends
before closing the channel and the error it returns. -/
structure SourceRead where
  rows : List Row
  err : Option String

/-- The method `anonymiser.ReadTable`: the rows that reach `rowChan` and the
returned error.  `find` is `a.tables.FindByName` (`none` when it returns an
error), `source` the wrapped reader. -/
def ReadTable (find : String → Option Table) (Functions : List (String × Faker))
    (source : String → SourceRead) (seed : Nat) (tableName : String) :
    List Row × Option String :=
  match find tableName with
  | none => ((source tableName).rows, (source tableName).err)
  | some table =>
    if table.Anonymise.length = 0 then
      ((source tableName).rows, (source tableName).err)
    else
      (relay Functions table.Anonymise (source tableName).rows seed, none)

/-- The specs for which the relay assigns the column: a literal override or the
name of a registered generator. -/
def rewrites (Functions : List (String × Faker)) (spec : String) : Prop :=
  HasPrefix spec literalPrefix = true ∨ spec ∈ Functions.map Prod.fst

instance (Functions : List (String × Faker)) (spec : String) :
    Decidable (rewrites Functions spec) := by
  unfold rewrites; exact inferInstance

/-! ## `pkg/reader/mysql/reader.go` -/

/-- The loop `for rows.Next() { ... }` of `GetTables`.  Each element of the
result set is the outcome of `rows.Scan(&tableName, &tableType)`. -/
def GetTables.loop :
    List (Except String (String × String)) → List String → Except String (List String)
  | [], tables => Except.ok tables
  | Except.error err :: _, _ => Except.error err
  | Except.ok (tableName, tableType) :: rest, tables =>
    if tableType = "BASE TABLE" then GetTables.loop rest (tables ++ [tableName])
    else GetTables.loop rest tables

/-- The method `storage.GetTables`, as a function of what
`s.conn.Query("SHOW FULL TABLES")` returns: an error, or the result set. -/
def GetTables (query : Except String (List (Except String (String × String)))) :
    Except String (List String) :=
  match query with
  | Except.error err => Except.error err
  | Except.ok rows => GetTables.loop rows []

/-- The loop `for rows.Next() { ... }` of `GetColumns`.  Each element of the
result set is the outcome of `rows.Scan(&column)`. -/
def GetColumns.loop :
    List (Except String String) → List String → Except String (List String)
  | [], columns => Except.ok columns
  | Except.error err :: _, _ => Except.error err
  | Except.ok column :: rest, columns => GetColumns.loop rest (columns ++ [column])

/-- The method `storage.GetColumns`, as a function of what the
`information_schema.columns` query returns for the table name: an error, or the
result set (empty when no table of that name exists).  `var columns []string`
starts as the nil slice, the empty list. -/
def GetColumns (query : Except String (List (Except String String))) :
    Except String (List String) :=
  match query with
  | Except.error err => Except.error err
  | Except.ok rows => GetColumns.loop rows []

/-! ## `pkg/dumper/mysql/dumper.go`: value encoding -/

/-- The character `digits[d]` of `strconv` for a decimal digit `d`. -/
def digitChar (d : Nat) : Char := Char.ofNat (48 + d)

/-- The digit loop of `strconv.formatBits` for base 10,
`for u >= 10 { i--; q := u / 10; a[i] = digits[u - q*10]; u = q }; i--; a[i] = digits[u]`,
writing into the buffer `a` from its end.  The first argument bounds the number
of iterations by the buffer size, which a `uint64` never exhausts. -/
def formatBitsLoop : Nat → Nat → List Char → List Char
  | 0, u, a => digitChar (u % 10) :: a
  | fuel + 1, u, a =>
    if u ≥ 10 then formatBitsLoop fuel (u / 10) (digitChar (u - (u / 10) * 10) :: a)
    else digitChar u :: a

/-- Go `strconv.formatBits(nil, u, 10, neg, false)` on a `uint64`: negate in
64-bit arithmetic when `neg`, produce the digits, put the sign in front. -/
def formatBits (u : Nat) (neg : Bool) : String :=
  let m := if neg then (2 ^ 64 - u) % 2 ^ 64 else u
  String.mk (if neg then '-' :: formatBitsLoop 64 m [] else formatBitsLoop 64 m [])

/-- Go `strconv.FormatInt(i, 10)`: `formatBits(nil, uint64(i), 10, i < 0, false)`. -/
def FormatInt (i : Int) : String :=
  formatBits (i % 2 ^ 64).toNat (decide (i < 0))

/-- Go `fmt.Sprintf("%v", value)` for a `uint8`: its unsigned decimal digits. -/
def FormatUint8 (n : Nat) : String :=
  formatBits (n % 2 ^ 8) false

/-- Go `strconv.FormatBool`. -/
def FormatBool (b : Bool) : String :=
  if b then "true" else "false"

/-- The library formatters `toStringValue` calls for the two types whose text
is not modelled: `fmt.Sprintf("%v", value)` on a `float64` and
`time.Time.String`. -/
structure Formatters where
  float64 : Nat → String
  time : Nat → String

/-- How a call of `toStringValue` can fail: it returns `("", err)` with
`err = errors.New(msg)`, or it dereferences a nil `*interface{}` and the
goroutine panics. -/
inductive Failure where
  | error (msg : String)
  | nilDereference
  deriving DecidableEq, Repr

/-- The method `myDumper.toStringValue`.  In every typed case the inner
assertion `src.(T)` succeeds, so the trailing `return "", nil` is never
reached.  In the `*interface{}` case the test `src == nil` compares an
interface holding a typed pointer with the nil interface and is false, so the
pointer is dereferenced. -/
def toStringValue (fmt : Formatters) : Value → Except Failure String
  | Value.uint8 value => Except.ok (FormatUint8 value)
  | Value.int64 value => Except.ok (FormatInt value)
  | Value.float64 value => Except.ok (fmt.float64 value)
  | Value.bool value => Except.ok (FormatBool value)
  | Value.string value => Except.ok value
  | Value.bytes value => Except.ok (String.mk value)
  | Value.time value => Except.ok (fmt.time value)
  | Value.nil => Except.ok "NULL"
  | Value.nilPtr => Except.error Failure.nilDereference
  | Value.ptr target => toStringValue fmt target
  | Value.other _ => Except.error (Failure.error "could not parse type")

/-- The closed `Value` variant of the data model: null, 64-bit signed integer,
64-bit float, boolean, string, raw byte sequence, timestamp. -/
def Value.inClosedSet : Value → Bool
  | Value.nil => true
  | Value.int64 _ => true
  | Value.float64 _ => true
  | Value.bool _ => true
  | Value.string _ => true
  | Value.bytes _ => true
  | Value.time _ => true
  | _ => false

/-- The value reached from a value by following non-nil `*interface{}`
pointers until something else is met. -/
def Value.pointee : Value → Value
  | Value.ptr target => Value.pointee target
  | v => v

/-- Formatters that print the bit pattern of a float and the number of an
instant in decimal; used where a concrete run is evaluated. -/
def Formatters.decimal : Formatters :=
  { float64 := fun bits => formatBits bits false, time := fun t => formatBits t false }

/-- The canonical base-10 digits of a natural number, most significant first:
`0` for zero, otherwise the digits of `Nat.digits 10` (no leading zero). -/
def decimalDigits (n : Nat) : List Char :=
  if n = 0 then ['0'] else ((Nat.digits 10 n).reverse.map digitChar)

/-- The canonical base-10 decimal text of an integer: a minus sign exactly when
it is negative, then the canonical digits of its magnitude. -/
def canonicalDecimal (i : Int) : String :=
  String.mk ((if i < 0 then ['-'] else []) ++ decimalDigits i.natAbs)

/-! ## `pkg/dumper/mysql/dumper.go`: the encoder of `insertIntoTable` -/

/-- The inner loop `for i, col := range columns` building `rowValues`: the
fields in column order, or the first failure of `toStringValue`. -/
def rowValues (fmt : Formatters) : List String → Row → Except Failure (List String)
  | [], _ => Except.ok []
  | col :: rest, row =>
    match toStringValue fmt (row.index col) with
    | Except.error err => Except.error err
    | Except.ok val =>
      match rowValues fmt rest row with
      | Except.error err => Except.error err
      | Except.ok vals => Except.ok (val :: vals)

/-- Go `unicode.IsSpace`. -/
def IsSpace (r : Char) : Bool :=
  r.toNat = 0x09 || r.toNat = 0x0A || r.toNat = 0x0B || r.toNat = 0x0C || r.toNat = 0x0D ||
    r.toNat = 0x20 || r.toNat = 0x85 || r.toNat = 0xA0 || r.toNat = 0x1680 ||
    (0x2000 ≤ r.toNat && r.toNat ≤ 0x200A) || r.toNat = 0x2028 || r.toNat = 0x2029 ||
    r.toNat = 0x202F || r.toNat = 0x205F || r.toNat = 0x3000

/-- The method `fieldNeedsQuotes` of `encoding/csv` with the comma as
delimiter: the empty field does not; a field equal to a backslash and a dot,
one holding a comma, a double quote, a carriage return or a line feed, or one
starting with a space does. -/
def fieldNeedsQuotes (field : String) : Bool :=
  if field = "" then false
  else if field = "\\." || field.data.any
      (fun c => c = ',' || c = '"' || c.toNat = 0x0D || c.toNat = 0x0A) then true
  else
    match field.data with
    | r1 :: _ => IsSpace r1
    | [] => false

/-- The text `csv.Writer.Write` produces for one field (`UseCRLF` is false):
the field itself, or the field between double quotes with each double quote
doubled. -/
def csvField (field : String) : List Char :=
  if fieldNeedsQuotes field then
    '"' :: (field.data.flatMap (fun c => if c = '"' then ['"', '"'] else [c])) ++ ['"']
  else field.data

/-- The text `csv.Writer.Write` produces for one record: the fields separated
by commas, then a line feed. -/
def csvRecord : List String → List Char
  | [] => [Char.ofNat 0x0A]
  | [field] => csvField field ++ [Char.ofNat 0x0A]
  | field :: rest => csvField field ++ ',' :: csvRecord rest

/-- The number of bytes of a character in UTF-8. -/
def utf8Len (c : Char) : Nat :=
  if c.toNat < 0x80 then 1 else if c.toNat < 0x800 then 2 else if c.toNat < 0x10000 then 3 else 4

/-- The number of bytes `csv.Writer.Write` hands to its `bufio.Writer` for one
record. -/
def csvSize (record : List String) : Nat :=
  ((csvRecord record).map utf8Len).sum

/-- The size of the buffer of the `bufio.Writer` that `csv.NewWriter` puts in
front of the pipe (`bufio.NewWriter`, 4096 bytes). -/
def defaultBufSize : Nat := 4096

/-- The `bufio.Writer` inside `w`, with the pipe behind it: `n` bytes are
buffered, `err` tells whether the sticky error `b.err` is set, `accepted`
counts the bytes copied into the buffer since the start, `delivered` the bytes
the reading end of the pipe has received. -/
structure Bufio where
  n : Nat
  err : Bool
  accepted : Nat
  delivered : Nat
  deriving DecidableEq, Repr

/-- Go `bufio.Writer.Flush` onto the `io.PipeWriter`.  `readerTakes` is the
reading end of the pipe (the database driver): `none` when it reads until end
of file, `some c` when it closes its end after `c` bytes, after which
`PipeWriter.Write` returns the bytes taken and `io.ErrClosedPipe`.  A short
write keeps the rest in the buffer and sets the sticky error. -/
def Bufio.Flush (readerTakes : Option Nat) (b : Bufio) : Bufio :=
  if b.err then b
  else if b.n = 0 then b
  else
    match readerTakes with
    | none => { b with n := 0, delivered := b.delivered + b.n }
    | some c =>
      if c - b.delivered < b.n then
        { b with n := b.n - (c - b.delivered), err := true,
                 delivered := b.delivered + (c - b.delivered) }
      else { b with n := 0, delivered := b.delivered + b.n }

/-- Go `bufio.Writer.WriteString` for a string of `size` bytes, with whether it
returned nil:
`for len(s) > b.Available() && b.err == nil { copy what fits; b.Flush() }`,
`if b.err != nil { return nn, b.err }`, then the rest is copied.  The first
argument bounds the number of iterations; `size + 1` is never exhausted, since
every iteration but the first starts with an empty buffer. -/
def Bufio.WriteString (readerTakes : Option Nat) : Nat → Nat → Bufio → Bufio × Bool
  | 0, _, b => (b, false)
  | fuel + 1, size, b =>
    if defaultBufSize - b.n < size ∧ b.err = false then
      Bufio.WriteString readerTakes fuel (size - (defaultBufSize - b.n))
        (Bufio.Flush readerTakes
          { b with n := b.n + (defaultBufSize - b.n),
                   accepted := b.accepted + (defaultBufSize - b.n) })
    else if b.err then (b, false)
    else ({ b with n := b.n + size, accepted := b.accepted + size }, true)

/-- The calls that `csv.Writer.Write` makes on its `bufio.Writer` for a record
of `size` bytes, with whether all returned nil (`Write` returns the first
error).  They are `WriteString` and `WriteByte` calls on the pieces of the
record's text; `WriteByte` flushes when the buffer is full, as `WriteString`
of one byte does, and `WriteString` of two pieces in turn flushes where
`WriteString` of their concatenation does, so the calls act as one
`WriteString` of the whole text.  (A library version that writes a quoted
field rune by rune may flush up to three bytes early at a character beyond
ASCII.) -/
def Bufio.writeBytes (readerTakes : Option Nat) (size : Nat) (b : Bufio) : Bufio × Bool :=
  Bufio.WriteString readerTakes (size + 1) size b

/-- What the encoder goroutine has done so far: the writer `w`; the records
for which `w.Write` returned nil, in order, each with the count of bytes
accepted when its text ended; the number of `w.Write` calls that returned an
error (each is logged); the counter `inserted`. -/
structure Encoder where
  w : Bufio
  written : List (List String × Nat)
  writeErrors : Nat
  inserted : Nat
  deriving DecidableEq, Repr

/-- The records on the bulk-load stream: those whose whole text the reading
end of the pipe has received. -/
def Encoder.stream (st : Encoder) : List (List String) :=
  (st.written.filter (fun p => p.2 ≤ st.w.delivered)).map Prod.fst

/-- How the encoder goroutine ends: `rowChan` closed (`break`), a value failed
to encode (`break L`), or `toStringValue` panicked. -/
inductive EncoderExit where
  | drained
  | encodeError
  | panicked
  deriving DecidableEq, Repr

/-- The statements `w.Write(rowValues)` (its error is logged and otherwise
ignored) and `atomic.AddInt64(&inserted, 1)`. -/
def writeRecord (readerTakes : Option Nat) (st : Encoder) (record : List String) : Encoder :=
  match st.w.writeBytes readerTakes (csvSize record) with
  | (b, true) =>
    { w := b, written := st.written ++ [(record, b.accepted)],
      writeErrors := st.writeErrors, inserted := st.inserted + 1 }
  | (b, false) =>
    { w := b, written := st.written, writeErrors := st.writeErrors + 1,
      inserted := st.inserted + 1 }

/-- The loop labelled `L` of the encoder goroutine of `insertIntoTable`, on the
rows it receives from `rowChan` before the channel is closed. -/
def encoderLoop (fmt : Formatters) (readerTakes : Option Nat) (columns : List String) :
    List Row → Encoder → Encoder × EncoderExit
  | [], st => (st, EncoderExit.drained)
  | row :: rest, st =>
    match rowValues fmt columns row with
    | Except.error (Failure.error _) => (st, EncoderExit.encodeError)
    | Except.error Failure.nilDereference => (st, EncoderExit.panicked)
    | Except.ok record =>
      encoderLoop fmt readerTakes columns rest (writeRecord readerTakes st record)

/-- The state `var inserted int64`, an empty buffer and an empty pipe. -/
def Encoder.init : Encoder :=
  { w := { n := 0, err := false, accepted := 0, delivered := 0 }, written := [],
    writeErrors := 0, inserted := 0 }

/-- The encoder goroutine of `insertIntoTable`: the loop, then `w.Flush()`,
whose error nothing reads (`w.Error()` is never called).  After a panic the
flush is not reached. -/
def encoder (fmt : Formatters) (readerTakes : Option Nat) (columns : List String)
    (rows : List Row) : Encoder × EncoderExit :=
  match encoderLoop fmt readerTakes columns rows Encoder.init with
  | (st, EncoderExit.panicked) => (st, EncoderExit.panicked)
  | (st, exit) => ({ st with w := st.w.Flush readerTakes }, exit)

/-- Whether every listed column of the row has a value that `toStringValue`
encodes. -/
def encodable (fmt : Formatters) (columns : List String) (row : Row) : Bool :=
  columns.all (fun col => (toStringValue fmt (row.index col)).toBool)

/-- A writer that has met no error, whose accepted bytes are all either
delivered or buffered, and whose buffer is within its size. -/
def Bufio.Sound (b : Bufio) : Prop :=
  b.err = false ∧ b.delivered + b.n = b.accepted ∧ b.n ≤ defaultBufSize

/-! ## `pkg/dumper/mysql/dumper.go`: `Dump` -/

/-- Go `errors.Wrap(err, message)`: nil for a nil error, otherwise an error
whose text is `message: err`. -/
def Wrap (err : Option String) (message : String) : Option String :=
  err.map (fun e => message ++ ": " ++ e)

/-- What the collaborators of the dumper answer during one run of `Dump`:
`p.reader.GetStructure()`, `p.conn.Exec(structureSQL)` (its error),
`p.reader.GetTables()`, the error returned by `p.reader.ReadTable(tbl, ...)`
for each table, and the error returned by `p.dumpTable(tbl, rowChan)` for each
table (`none` is the nil error).  Every call made by the caller's goroutine is
taken to return. -/
structure Run where
  GetStructure : Except String String
  Exec : String → Option String
  GetTables : Except String (List String)
  ReadTable : String → Option String
  dumpTable : String → Option String

/-- The method `myDumper.dumpStructure`. -/
def dumpStructure (run : Run) : Option String :=
  match run.GetStructure with
  | Except.error err => Wrap (some err) "failed to get structure"
  | Except.ok structureSQL => Wrap (run.Exec structureSQL) "failed to exec structure sql"

/-- The value returned by the loop `for _, tbl := range tables` of `dumpTables`
and the statements after it: the wrapped error of the first `ReadTable` that
fails, otherwise nil. -/
def dumpTables.loop (run : Run) : List String → Option String
  | [] => none
  | tbl :: rest =>
    match run.ReadTable tbl with
    | some err => Wrap (some err) ""
    | none => dumpTables.loop run rest

/-- The value returned by the method `myDumper.dumpTables`. -/
def dumpTables (run : Run) : Option String :=
  match run.GetTables with
  | Except.error err => some err
  | Except.ok tables => dumpTables.loop run tables

/-- The value returned by the method `myDumper.Dump`. -/
def Dump (run : Run) : Option String :=
  match dumpStructure run with
  | some err => some err
  | none => dumpTables run

/-- Where the goroutine that called `Dump` stands: before `dumpStructure`,
before `GetTables`, at the head of the loop over the tables still to visit, or
returned with an error value. -/
inductive MainPc where
  | start
  | getTables
  | loop (rest : List String)
  | returned (err : Option String)
  deriving DecidableEq, Repr

/-- The goroutine `go func() { wg.Wait(); done <- struct{}{} }()`: not started,
started and not yet past the send, or past the send. -/
inductive WaiterPc where
  | absent
  | waiting
  | sent
  deriving DecidableEq, Repr

/-- The state of one run of `Dump`: the caller's goroutine, the counter of
`wg`, the tables whose goroutine `go func(tableName, rowChan)` is started and
has not yet called `wg.Done()`, the tables whose goroutine has, those among
them for which `Failed to dump table` was logged, the waiting goroutine, and
the number of values sent on `done`. -/
structure DumpState where
  main : MainPc
  wg : Int
  running : List String
  finished : List String
  failed : List String
  waiter : WaiterPc
  signals : Nat
  deriving DecidableEq, Repr

/-- The state when `Dump` is called. -/
def DumpState.init : DumpState :=
  { main := MainPc.start, wg := 0, running := [], finished := [], failed := [],
    waiter := WaiterPc.absent, signals := 0 }

/-- Which goroutine moves next: the caller's, the goroutine of one table (it
finishes: `dumpTable` returns, a failure is logged, `wg.Done()`), or the
waiting goroutine (it gets past `wg.Wait()` and sends on `done`, where a
receiver is taken to be ready). -/
inductive Event where
  | main
  | pipeline (tbl : String)
  | waiter
  deriving DecidableEq, Repr

/-- One move of the caller's goroutine through `Dump` and `dumpTables`:
`dumpStructure`; `GetTables` and `wg.Add(len(tables))`; one iteration of the
loop (the goroutine of `tbl` is started, then `ReadTable` is called; the
configuration lookup only chooses the read options); or, after the loop, the
start of the waiting goroutine and `return nil`. -/
def stepMain (run : Run) (s : DumpState) : Option DumpState :=
  match s.main with
  | MainPc.start =>
    match dumpStructure run with
    | some err => some { s with main := MainPc.returned (some err) }
    | none => some { s with main := MainPc.getTables }
  | MainPc.getTables =>
    match run.GetTables with
    | Except.error err => some { s with main := MainPc.returned (some err) }
    | Except.ok tables => some { s with wg := s.wg + tables.length, main := MainPc.loop tables }
  | MainPc.loop [] =>
    some { s with waiter := WaiterPc.waiting, main := MainPc.returned none }
  | MainPc.loop (tbl :: rest) =>
    match run.ReadTable tbl with
    | some err =>
      some { s with running := tbl :: s.running, main := MainPc.returned (Wrap (some err) "") }
    | none => some { s with running := tbl :: s.running, main := MainPc.loop rest }
  | MainPc.returned _ => none

/-- One move of the run; `none` when the chosen goroutine cannot move (it does
not exist, has finished, or is blocked in `wg.Wait()`). -/
def step (run : Run) (s : DumpState) : Event → Option DumpState
  | Event.main => stepMain run s
  | Event.pipeline tbl =>
    if tbl ∈ s.running then
      some { s with
        running := s.running.erase tbl
        finished := tbl :: s.finished
        failed := if (run.dumpTable tbl).isSome then tbl :: s.failed else s.failed
        wg := s.wg - 1 }
    else none
  | Event.waiter =>
    match s.waiter with
    | WaiterPc.waiting =>
      if s.wg = 0 then some { s with waiter := WaiterPc.sent, signals := s.signals + 1 }
      else none
    | _ => none

/-- The state after a sequence of moves, when each of them is possible. -/
def exec (run : Run) : DumpState → List Event → Option DumpState
  | s, [] => some s
  | s, e :: rest =>
    match step run s e with
    | none => none
    | some s' => exec run s' rest

/-- A run in which the structure stage succeeds, `GetTables` lists `a` and `b`,
and the reader's `ReadTable` fails for `a`. -/
def Run.readFails : Run :=
  { GetStructure := Except.ok "CREATE TABLE a; CREATE TABLE b;"
    Exec := fun _ => none
    GetTables := Except.ok ["a", "b"]
    ReadTable := fun tbl => if tbl = "a" then some "connection lost" else none
    dumpTable := fun _ => none }

/-- A run in which every stage of the caller's goroutine succeeds for the
tables `a` and `b`, and `dumpTable` fails for `a`. -/
def Run.loadFails : Run :=
  { GetStructure := Except.ok "CREATE TABLE a; CREATE TABLE b;"
    Exec := fun _ => none
    GetTables := Except.ok ["a", "b"]
    ReadTable := fun _ => none
    dumpTable := fun tbl => if tbl = "a" then some "failed to insert rows" else none }

/-- The number of tables `GetTables` lists in the run (0 when it fails). -/
def Run.tableCount (run : Run) : Nat :=
  match run.GetTables with
  | Except.ok tables => tables.length
  | Except.error _ => 0

/-- A bound on the number of moves still possible from a state. -/
def movesLeft (run : Run) (s : DumpState) : Nat :=
  2 * (match s.main with
      | MainPc.start => run.tableCount + 3
      | MainPc.getTables => run.tableCount + 2
      | MainPc.loop rest => rest.length + 1
      | MainPc.returned _ => 0)
    + s.running.length + (if s.waiter = WaiterPc.waiting then 1 else 0)

/-- The facts that hold of every state of a run, by the position of the
caller's goroutine. -/
def Inv (run : Run) (s : DumpState) : Prop :=
  match s.main with
  | MainPc.start =>
    s.wg = 0 ∧ s.running = [] ∧ s.waiter = WaiterPc.absent ∧ s.signals = 0 ∧ s.finished = []
  | MainPc.getTables =>
    dumpStructure run = none ∧
      s.wg = 0 ∧ s.running = [] ∧ s.waiter = WaiterPc.absent ∧ s.signals = 0 ∧ s.finished = []
  | MainPc.loop rest =>
    dumpStructure run = none ∧ ∃ launched, run.GetTables = Except.ok (launched ++ rest) ∧
      (∀ t ∈ launched, run.ReadTable t = none) ∧ (s.running ++ s.finished).Perm launched ∧
      s.wg = rest.length + s.running.length ∧ s.waiter = WaiterPc.absent ∧ s.signals = 0
  | MainPc.returned none =>
    dumpStructure run = none ∧ ∃ tables, run.GetTables = Except.ok tables ∧
      (∀ t ∈ tables, run.ReadTable t = none) ∧ (s.running ++ s.finished).Perm tables ∧
      s.wg = s.running.length ∧
      ((s.waiter = WaiterPc.waiting ∧ s.signals = 0) ∨
        (s.waiter = WaiterPc.sent ∧ s.signals = 1 ∧ s.running = []))
  | MainPc.returned (some err) =>
    Dump run = some err ∧ s.waiter = WaiterPc.absent ∧ s.signals = 0

/-! ## Lemmas: the relay stage -/

theorem hasPrefix_append (pre t : String) : HasPrefix (pre ++ t) pre = true := by
  simp [HasPrefix, String.data_append]

theorem trimPrefix_append (pre t : String) : TrimPrefix (pre ++ t) pre = t := by
  simp [TrimPrefix, hasPrefix_append, String.data_append]

theorem fakerFold_other (ft column k : String) (hk : k ≠ column)
    (Functions : List (String × Faker)) (st : Row × Nat) :
    (Functions.foldl (fakerStep ft column) st).1 k = st.1 k := by
  induction Functions generalizing st with
  | nil => rfl
  | cons e rest ih =>
    rw [List.foldl_cons, ih]
    unfold fakerStep
    split
    · rfl
    · simp [Row.set, hk]

theorem fakerFold_unregistered (ft column : String)
    (Functions : List (String × Faker)) (hft : ft ∉ Functions.map Prod.fst)
    (st : Row × Nat) :
    Functions.foldl (fakerStep ft column) st = st := by
  induction Functions generalizing st with
  | nil => rfl
  | cons e rest ih =>
    simp only [List.map_cons, List.mem_cons, not_or] at hft
    rw [List.foldl_cons]
    have : fakerStep ft column st e = st := by simp [fakerStep, hft.1]
    rw [this]
    exact ih hft.2 st

theorem fakerFold_isSome (ft column : String) (Functions : List (String × Faker))
    (st : Row × Nat) :
    ((Functions.foldl (fakerStep ft column) st).1 column).isSome = true ↔
      ((st.1 column).isSome = true ∨ ft ∈ Functions.map Prod.fst) := by
  induction Functions generalizing st with
  | nil => simp
  | cons e rest ih =>
    rw [List.foldl_cons, ih]
    unfold fakerStep
    by_cases h : ft = e.1
    · simp [h, Row.set]
    · simp only [ne_eq, h, not_false_eq_true, if_true, List.map_cons, List.mem_cons, false_or]

theorem anonymiseStep_other (Functions : List (String × Faker)) (st : Row × Nat)
    (entry : String × String) (k : String) (hk : k ≠ entry.1) :
    (anonymiseStep Functions st entry).1 k = st.1 k := by
  unfold anonymiseStep
  split
  · simp [Row.set, hk]
  · exact fakerFold_other _ _ _ hk _ _

theorem anonymiseStep_inert (Functions : List (String × Faker)) (st : Row × Nat)
    (entry : String × String) (hlit : HasPrefix entry.2 literalPrefix = false)
    (hreg : entry.2 ∉ Functions.map Prod.fst) :
    anonymiseStep Functions st entry = st := by
  unfold anonymiseStep
  rw [hlit]
  simpa using fakerFold_unregistered _ _ _ hreg st

theorem anonymiseStep_literal (Functions : List (String × Faker)) (st : Row × Nat)
    (entry : String × String) (hlit : HasPrefix entry.2 literalPrefix = true) :
    (anonymiseStep Functions st entry).1 entry.1 =
      some (Value.string (TrimPrefix entry.2 literalPrefix)) := by
  unfold anonymiseStep
  rw [hlit]
  simp [Row.set]

theorem anonymiseStep_isSome (Functions : List (String × Faker)) (st : Row × Nat)
    (entry : String × String) (k : String) :
    ((anonymiseStep Functions st entry).1 k).isSome = true ↔
      ((st.1 k).isSome = true ∨ (k = entry.1 ∧ rewrites Functions entry.2)) := by
  by_cases hk : k = entry.1
  · subst hk
    unfold anonymiseStep rewrites
    by_cases hlit : HasPrefix entry.2 literalPrefix = true
    · simp [hlit, Row.set]
    · simp only [hlit, Bool.false_eq_true, if_false, fakerFold_isSome, true_and, false_or]
  · rw [anonymiseStep_other _ _ _ _ hk]
    simp [hk]

theorem anonymiseRow_frame (Functions : List (String × Faker))
    (anon : List (String × String)) (st : Row × Nat) (k : String)
    (h : ∀ spec, (k, spec) ∈ anon → ¬ rewrites Functions spec) :
    (anonymiseRow Functions anon st).1 k = st.1 k := by
  unfold anonymiseRow
  induction anon generalizing st with
  | nil => rfl
  | cons e rest ih =>
    rw [List.foldl_cons, ih _ (fun spec hs => h spec (List.mem_cons_of_mem _ hs))]
    by_cases hk : k = e.1
    · have hno := h e.2 (by rw [hk]; exact List.mem_cons_self _ _)
      unfold rewrites at hno
      rw [not_or] at hno
      rw [anonymiseStep_inert _ _ _ (by simpa using hno.1) hno.2]
    · exact anonymiseStep_other _ _ _ _ hk

theorem anonymiseRow_other (Functions : List (String × Faker))
    (anon : List (String × String)) (st : Row × Nat) (k : String)
    (h : k ∉ anon.map Prod.fst) :
    (anonymiseRow Functions anon st).1 k = st.1 k := by
  apply anonymiseRow_frame
  intro spec hs
  exact absurd (List.mem_map_of_mem Prod.fst hs) h

theorem anonymiseRow_literal (Functions : List (String × Faker))
    (anon : List (String × String)) (hnd : (anon.map Prod.fst).Nodup)
    (st : Row × Nat) (column spec : String) (hmem : (column, spec) ∈ anon)
    (hlit : HasPrefix spec literalPrefix = true) :
    (anonymiseRow Functions anon st).1 column =
      some (Value.string (TrimPrefix spec literalPrefix)) := by
  induction anon generalizing st with
  | nil => cases hmem
  | cons e rest ih =>
    rw [List.map_cons, List.nodup_cons] at hnd
    have hrow : anonymiseRow Functions (e :: rest) st =
        anonymiseRow Functions rest (anonymiseStep Functions st e) := rfl
    rw [hrow]
    rcases List.mem_cons.1 hmem with heq | hrest
    · subst heq
      rw [anonymiseRow_other _ _ _ _ hnd.1]
      exact anonymiseStep_literal _ _ _ hlit
    · exact ih hnd.2 _ hrest

theorem anonymiseRow_isSome (Functions : List (String × Faker))
    (anon : List (String × String)) (st : Row × Nat) (k : String) :
    ((anonymiseRow Functions anon st).1 k).isSome = true ↔
      ((st.1 k).isSome = true ∨ ∃ spec, (k, spec) ∈ anon ∧ rewrites Functions spec) := by
  induction anon generalizing st with
  | nil => simp [anonymiseRow]
  | cons e rest ih =>
    have hrow : anonymiseRow Functions (e :: rest) st =
        anonymiseRow Functions rest (anonymiseStep Functions st e) := rfl
    rw [hrow, ih, anonymiseStep_isSome]
    constructor
    · rintro ((h | ⟨hk, hr⟩) | ⟨spec, hs, hr⟩)
      · exact Or.inl h
      · exact Or.inr ⟨e.2, by rw [hk]; exact List.mem_cons_self _ _, hr⟩
      · exact Or.inr ⟨spec, List.mem_cons_of_mem _ hs, hr⟩
    · rintro (h | ⟨spec, hs, hr⟩)
      · exact Or.inl (Or.inl h)
      · rcases List.mem_cons.1 hs with heq | hrest
        · refine Or.inl (Or.inr ⟨?_, ?_⟩)
          · rw [← heq]
          · rw [← heq]; exact hr
        · exact Or.inr ⟨spec, hrest, hr⟩

theorem relay_forall₂ (Functions : List (String × Faker)) (anon : List (String × String))
    (P : Row → Row → Prop)
    (hP : ∀ row seed, P row (anonymiseRow Functions anon (row, seed)).1)
    (rows : List Row) (seed : Nat) :
    List.Forall₂ P rows (relay Functions anon rows seed) := by
  induction rows generalizing seed with
  | nil => exact List.Forall₂.nil
  | cons row rest ih => exact List.Forall₂.cons (hP row seed) (ih _)

theorem relay_mem (Functions : List (String × Faker)) (anon : List (String × String))
    (rows : List Row) (seed : Nat) (out : Row)
    (h : out ∈ relay Functions anon rows seed) :
    ∃ row s, row ∈ rows ∧ out = (anonymiseRow Functions anon (row, s)).1 := by
  induction rows generalizing seed with
  | nil => cases h
  | cons row rest ih =>
    rcases List.mem_cons.1 h with heq | hrest
    · exact ⟨row, seed, List.mem_cons_self _ _, heq⟩
    · obtain ⟨r, s, hr, hs⟩ := ih _ hrest
      exact ⟨r, s, List.mem_cons_of_mem _ hr, hs⟩

theorem forall₂_same {α : Type} (P : α → α → Prop) (hP : ∀ a, P a a) (l : List α) :
    List.Forall₂ P l l := by
  induction l with
  | nil => exact List.Forall₂.nil
  | cons a rest ih => exact List.Forall₂.cons (hP a) ih

/-! ## Lemmas: the reader listings -/

theorem GetTables_loop_ok (rows : List (String × String)) (tables : List String) :
    GetTables.loop (rows.map Except.ok) tables =
      Except.ok (tables ++ (rows.filter (fun r => r.2 = "BASE TABLE")).map Prod.fst) := by
  induction rows generalizing tables with
  | nil => simp [GetTables.loop]
  | cons r rest ih =>
    obtain ⟨tableName, tableType⟩ := r
    by_cases h : tableType = "BASE TABLE"
    · simp [GetTables.loop, h, ih]
    · simp [GetTables.loop, h, ih]

theorem GetColumns_loop_ok (rows : List String) (columns : List String) :
    GetColumns.loop (rows.map Except.ok) columns = Except.ok (columns ++ rows) := by
  induction rows generalizing columns with
  | nil => simp [GetColumns.loop]
  | cons r rest ih => simp [GetColumns.loop, ih]

theorem GetColumns_loop_error (rows : List (Except String String)) (columns : List String)
    (err : String) (h : GetColumns.loop rows columns = Except.error err) :
    Except.error err ∈ rows := by
  induction rows generalizing columns with
  | nil => simp [GetColumns.loop] at h
  | cons r rest ih =>
    cases r with
    | error e =>
      simp only [GetColumns.loop, Except.error.injEq] at h
      rw [h]
      exact List.mem_cons_self _ _
    | ok column =>
      simp only [GetColumns.loop] at h
      exact List.mem_cons_of_mem _ (ih _ h)

/-! ## Lemmas: value encoding -/

theorem formatBitsLoop_digits (fuel : Nat) :
    ∀ (u : Nat) (a : List Char), 0 < u → u < 10 ^ (fuel + 1) →
      formatBitsLoop fuel u a = (Nat.digits 10 u).reverse.map digitChar ++ a := by
  induction fuel with
  | zero =>
    intro u a h0 h1
    have hu : u < 10 := by simpa using h1
    rw [Nat.digits_of_lt 10 u (by omega) hu]
    simp [formatBitsLoop, Nat.mod_eq_of_lt hu]
  | succ fuel ih =>
    intro u a h0 h1
    unfold formatBitsLoop
    by_cases hu : u ≥ 10
    · rw [if_pos hu, ih (u / 10) _ (by omega) (by rw [pow_succ] at h1; omega)]
      rw [Nat.digits_def' (by decide : 1 < 10) h0]
      have hmod : u - u / 10 * 10 = u % 10 := by omega
      simp [hmod]
    · rw [if_neg hu, Nat.digits_of_lt 10 u (by omega) (by omega)]
      simp

theorem formatBitsLoop_decimal (u : Nat) (hu : u < 2 ^ 64) :
    formatBitsLoop 64 u [] = decimalDigits u := by
  unfold decimalDigits
  by_cases h0 : u = 0
  · subst h0
    decide
  · rw [if_neg h0, formatBitsLoop_digits 64 u [] (by omega)
      (lt_of_lt_of_le hu (by norm_num)), List.append_nil]

theorem FormatInt_canonical (i : Int) (hlo : -2 ^ 63 ≤ i) (hhi : i < 2 ^ 63) :
    FormatInt i = canonicalDecimal i := by
  unfold FormatInt formatBits canonicalDecimal
  by_cases hneg : i < 0
  · have hm : (2 ^ 64 - (i % 2 ^ 64).toNat) % 2 ^ 64 = i.natAbs := by omega
    simp only [hneg, decide_True, if_true, hm]
    rw [formatBitsLoop_decimal _ (by omega)]
    rfl
  · have hm : (i % 2 ^ 64).toNat = i.natAbs := by omega
    simp only [hneg, decide_False, if_false, hm, Bool.false_eq_true]
    rw [formatBitsLoop_decimal _ (by omega)]
    rfl

theorem toStringValue_closed_ok (fmt : Formatters) (v : Value)
    (h : v.inClosedSet = true) : ∃ text, toStringValue fmt v = Except.ok text := by
  cases v <;> simp [Value.inClosedSet] at h <;> exact ⟨_, rfl⟩

/-! ## Lemmas: the encoder -/

theorem rowValues_ok_iff (fmt : Formatters) (row : Row) (columns : List String)
    (record : List String) :
    rowValues fmt columns row = Except.ok record ↔
      List.Forall₂ (fun col field => toStringValue fmt (row.index col) = Except.ok field)
        columns record := by
  induction columns generalizing record with
  | nil =>
    constructor
    · intro h
      simp only [rowValues, Except.ok.injEq] at h
      rw [← h]
      exact List.Forall₂.nil
    · intro h
      cases h
      rfl
  | cons col rest ih =>
    unfold rowValues
    cases hv : toStringValue fmt (row.index col) with
    | error e =>
      constructor
      · intro h; cases h
      · intro h
        cases h with
        | cons h1 _ => rw [hv] at h1; cases h1
    | ok val =>
      cases hr : rowValues fmt rest row with
      | error e =>
        constructor
        · intro h; cases h
        · intro h
          cases h with
          | cons h1 h2 =>
            have := (ih _).2 h2
            rw [hr] at this
            cases this
      | ok vals =>
        constructor
        · intro h
          simp only [Except.ok.injEq] at h
          rw [← h]
          exact List.Forall₂.cons hv ((ih _).1 hr)
        · intro h
          cases h with
          | cons h1 h2 =>
            have h3 := (ih _).2 h2
            rw [hv] at h1
            rw [hr] at h3
            simp only [Except.ok.injEq] at h1 h3
            rw [h1, h3]

theorem rowValues_encodable (fmt : Formatters) (row : Row) (columns : List String) :
    encodable fmt columns row = true ↔ ∃ record, rowValues fmt columns row = Except.ok record := by
  induction columns with
  | nil => simp [encodable, rowValues]
  | cons col rest ih =>
    have hen : encodable fmt (col :: rest) row =
        ((toStringValue fmt (row.index col)).toBool && encodable fmt rest row) := by
      simp [encodable]
    rw [hen]
    unfold rowValues
    cases hv : toStringValue fmt (row.index col) with
    | error e => simp [Except.toBool]
    | ok val =>
      simp only [Except.toBool, Bool.true_and]
      rw [ih]
      cases hr : rowValues fmt rest row with
      | error e => simp
      | ok vals => simp

theorem encoderLoop_inserted (fmt : Formatters) (readerTakes : Option Nat)
    (columns : List String) (rows : List Row) :
    ∀ st : Encoder,
      (encoderLoop fmt readerTakes columns rows st).1.inserted =
        st.inserted + (rows.takeWhile (encodable fmt columns)).length := by
  induction rows with
  | nil => intro st; simp [encoderLoop]
  | cons row rest ih =>
    intro st
    cases hr : rowValues fmt columns row with
    | error e =>
      have hen : encodable fmt columns row = false := by
        rw [Bool.eq_false_iff, Ne, rowValues_encodable, hr]
        simp
      cases e <;> simp [encoderLoop, hr, List.takeWhile_cons, hen]
    | ok record =>
      have hen : encodable fmt columns row = true := (rowValues_encodable _ _ _).2 ⟨_, hr⟩
      simp only [encoderLoop, hr, List.takeWhile_cons, hen, if_true, List.length_cons]
      rw [ih]
      have : (writeRecord readerTakes st record).inserted = st.inserted + 1 := by
        unfold writeRecord
        split <;> rfl
      rw [this]
      omega

theorem encoder_inserted (fmt : Formatters) (readerTakes : Option Nat)
    (columns : List String) (rows : List Row) :
    (encoder fmt readerTakes columns rows).1.inserted =
      (rows.takeWhile (encodable fmt columns)).length := by
  have h := encoderLoop_inserted fmt readerTakes columns rows Encoder.init
  unfold encoder
  split
  · next st heq => rw [heq] at h; simpa [Encoder.init] using h
  · next st exit _ heq => rw [heq] at h; simpa [Encoder.init] using h

theorem Bufio.Flush_none (b : Bufio) (h : b.Sound) :
    (b.Flush none).Sound ∧ (b.Flush none).n = 0 ∧ (b.Flush none).accepted = b.accepted := by
  obtain ⟨he, hd, hn⟩ := h
  unfold Bufio.Flush Bufio.Sound
  by_cases h0 : b.n = 0
  · rw [h0] at hd
    simp [he, h0, hd]
  · simp [he, h0, hd]

theorem Bufio.WriteString_succ (t : Option Nat) (fuel size : Nat) (b : Bufio) :
    Bufio.WriteString t (fuel + 1) size b =
      if defaultBufSize - b.n < size ∧ b.err = false then
        Bufio.WriteString t fuel (size - (defaultBufSize - b.n))
          (Bufio.Flush t
            { b with n := b.n + (defaultBufSize - b.n),
                     accepted := b.accepted + (defaultBufSize - b.n) })
      else if b.err then (b, false)
      else ({ b with n := b.n + size, accepted := b.accepted + size }, true) := rfl

theorem Bufio.WriteString_none (fuel : Nat) :
    ∀ (size : Nat) (b : Bufio), b.Sound → 0 < fuel →
      size ≤ (fuel - 1) * 4096 + (4096 - b.n) →
      (Bufio.WriteString none fuel size b).2 = true ∧
        (Bufio.WriteString none fuel size b).1.Sound ∧
        (Bufio.WriteString none fuel size b).1.accepted = b.accepted + size := by
  induction fuel with
  | zero => intro size b _ h0; omega
  | succ fuel ih =>
    intro size b hs _ hsz
    obtain ⟨he, hd, hn⟩ := hs
    have hbuf : defaultBufSize = 4096 := rfl
    rw [Bufio.WriteString_succ]
    by_cases hc : defaultBufSize - b.n < size ∧ b.err = false
    · rw [if_pos hc]
      have hmid : Bufio.Sound (Bufio.mk (b.n + (defaultBufSize - b.n)) b.err
          (b.accepted + (defaultBufSize - b.n)) b.delivered) := by
        refine ⟨he, ?_, ?_⟩
        · show b.delivered + (b.n + (defaultBufSize - b.n)) =
            b.accepted + (defaultBufSize - b.n)
          omega
        · show b.n + (defaultBufSize - b.n) ≤ defaultBufSize
          omega
      obtain ⟨f1, f2, f3⟩ := Bufio.Flush_none _ hmid
      have hrec := ih (size - (defaultBufSize - b.n)) _ f1 (by omega) (by rw [f2]; omega)
      refine ⟨hrec.1, hrec.2.1, ?_⟩
      rw [hrec.2.2, f3]
      show b.accepted + (defaultBufSize - b.n) + (size - (defaultBufSize - b.n)) =
        b.accepted + size
      omega
    · rw [if_neg hc, if_neg (by simp [he])]
      have hfit : size ≤ defaultBufSize - b.n := by
        by_contra hlt
        exact hc ⟨by omega, he⟩
      refine ⟨rfl, ⟨he, ?_, ?_⟩, rfl⟩
      · show b.delivered + (b.n + size) = b.accepted + size
        omega
      · show b.n + size ≤ defaultBufSize
        omega

theorem Bufio.writeBytes_none (size : Nat) (b : Bufio) (h : b.Sound) :
    (Bufio.writeBytes none size b).2 = true ∧ (Bufio.writeBytes none size b).1.Sound ∧
      (Bufio.writeBytes none size b).1.accepted = b.accepted + size := by
  unfold Bufio.writeBytes
  exact Bufio.WriteString_none (size + 1) size b h (by omega) (by simp; omega)

theorem encoderLoop_none (fmt : Formatters) (columns : List String) (rows : List Row) :
    ∀ st : Encoder, st.w.Sound → (∀ p ∈ st.written, p.2 ≤ st.w.accepted) →
      ∃ records,
        ((encoderLoop fmt none columns rows st).1.written.map Prod.fst =
          st.written.map Prod.fst ++ records) ∧
        (encoderLoop fmt none columns rows st).1.writeErrors = st.writeErrors ∧
        (encoderLoop fmt none columns rows st).1.w.Sound ∧
        (∀ p ∈ (encoderLoop fmt none columns rows st).1.written,
          p.2 ≤ (encoderLoop fmt none columns rows st).1.w.accepted) ∧
        List.Forall₂ (fun row record => rowValues fmt columns row = Except.ok record)
          (rows.takeWhile (encodable fmt columns)) records := by
  induction rows with
  | nil =>
    intro st hs hw
    exact ⟨[], by simp [encoderLoop], rfl, hs, hw, by simp⟩
  | cons row rest ih =>
    intro st hs hw
    cases hr : rowValues fmt columns row with
    | error e =>
      have hen : encodable fmt columns row = false := by
        rw [Bool.eq_false_iff, Ne, rowValues_encodable, hr]
        simp
      refine ⟨[], ?_⟩
      cases e <;> simp [encoderLoop, hr, List.takeWhile_cons, hen, hs] <;>
        exact fun a b hab => hw (a, b) hab
    | ok record =>
      have hen : encodable fmt columns row = true := (rowValues_encodable _ _ _).2 ⟨_, hr⟩
      obtain ⟨w1, w2, w3⟩ := Bufio.writeBytes_none (csvSize record) st.w hs
      have hrec : writeRecord none st record =
          { w := (Bufio.writeBytes none (csvSize record) st.w).1,
            written := st.written ++
              [(record, (Bufio.writeBytes none (csvSize record) st.w).1.accepted)],
            writeErrors := st.writeErrors, inserted := st.inserted + 1 } := by
        unfold writeRecord
        cases hwb : Bufio.writeBytes none (csvSize record) st.w with
        | mk b ok =>
          rw [hwb] at w1
          simp only at w1
          subst w1
          rfl
      have hw' : ∀ p ∈ (writeRecord none st record).written,
          p.2 ≤ (writeRecord none st record).w.accepted := by
        rw [hrec]
        intro p hp
        simp only [List.mem_append, List.mem_singleton] at hp
        rcases hp with hp | hp
        · have := hw p hp
          simp only [w3]
          omega
        · rw [hp]
      obtain ⟨records, h1, h2, h3, h4, h5⟩ :=
        ih (writeRecord none st record) (by rw [hrec]; exact w2) hw'
      have hloop : encoderLoop fmt none columns (row :: rest) st =
          encoderLoop fmt none columns rest (writeRecord none st record) := by
        simp only [encoderLoop, hr]
      rw [hloop]
      refine ⟨record :: records, ?_, ?_, h3, h4, ?_⟩
      · rw [h1, hrec]
        simp
      · rw [h2, hrec]
      · simp only [List.takeWhile_cons, hen, if_true]
        exact List.Forall₂.cons hr h5

theorem encoder_none_stream (fmt : Formatters) (columns : List String) (rows : List Row)
    (hexit : (encoder fmt none columns rows).2 ≠ EncoderExit.panicked) :
    (encoder fmt none columns rows).1.writeErrors = 0 ∧
      List.Forall₂ (fun row record => rowValues fmt columns row = Except.ok record)
        (rows.takeWhile (encodable fmt columns)) (encoder fmt none columns rows).1.stream := by
  obtain ⟨records, h1, h2, h3, h4, h5⟩ :=
    encoderLoop_none fmt columns rows Encoder.init ⟨rfl, rfl, by decide⟩
      (by simp [Encoder.init])
  have hfl := Bufio.Flush_none _ h3
  unfold encoder at hexit ⊢
  cases hl : encoderLoop fmt none columns rows Encoder.init with
  | mk st exit =>
    rw [hl] at h1 h2 h3 h4 hexit hfl
    simp only at h1 h2 h3 h4 hfl
    cases exit with
    | panicked => simp at hexit
    | drained =>
      simp only
      refine ⟨by simpa [Encoder.init] using h2, ?_⟩
      have hall : ∀ p ∈ st.written, p.2 ≤ (st.w.Flush none).delivered := by
        intro p hp
        have := h4 p hp
        have h6 := hfl.1.2.1
        rw [hfl.2.1, hfl.2.2] at h6
        omega
      have : Encoder.stream { st with w := st.w.Flush none } = records := by
        unfold Encoder.stream
        simp only
        rw [List.filter_eq_self.2 (by intro p hp; simpa using hall p hp), h1]
        simp [Encoder.init]
      rw [this]
      exact h5
    | encodeError =>
      simp only
      refine ⟨by simpa [Encoder.init] using h2, ?_⟩
      have hall : ∀ p ∈ st.written, p.2 ≤ (st.w.Flush none).delivered := by
        intro p hp
        have := h4 p hp
        have h6 := hfl.1.2.1
        rw [hfl.2.1, hfl.2.2] at h6
        omega
      have : Encoder.stream { st with w := st.w.Flush none } = records := by
        unfold Encoder.stream
        simp only
        rw [List.filter_eq_self.2 (by intro p hp; simpa using hall p hp), h1]
        simp [Encoder.init]
      rw [this]
      exact h5

/-- When the reading end of the pipe reads until end of file and the encoder
does not panic, the records on the stream are, in order, one per row of the
longest prefix of encodable rows, each with one field per listed column that is
`toStringValue` of the row's value for that column; no `w.Write` fails and the
counter `inserted` equals the number of records on the stream. -/
theorem encoder_records_when_read (fmt : Formatters) (columns : List String)
    (rows : List Row) (hexit : (encoder fmt none columns rows).2 ≠ EncoderExit.panicked) :
    List.Forall₂
        (fun row record => record.length = columns.length ∧
          List.Forall₂ (fun col field => toStringValue fmt (row.index col) = Except.ok field)
            columns record)
        (rows.takeWhile (encodable fmt columns)) (encoder fmt none columns rows).1.stream ∧
      (encoder fmt none columns rows).1.writeErrors = 0 ∧
      (encoder fmt none columns rows).1.inserted =
        (encoder fmt none columns rows).1.stream.length := by
  obtain ⟨h1, h2⟩ := encoder_none_stream fmt columns rows hexit
  refine ⟨?_, h1, ?_⟩
  · refine List.Forall₂.imp (fun row record h => ?_) h2
    have hf := (rowValues_ok_iff fmt row columns record).1 h
    exact ⟨hf.length_eq.symm, hf⟩
  · rw [encoder_inserted, h2.length_eq]

/-- With one small row and a reading end of the pipe that is closed from the
start, `w.Write` returns nil, the record stays in the buffer, `w.Flush()` fails
unread, and the counter is 1 with no record on the stream. -/
theorem encoder_unread_flush_error :
    encoder Formatters.decimal (some 0) ["id"] [Row.empty.set "id" (Value.int64 1)] =
        ({ w := { n := 2, err := true, accepted := 2, delivered := 0 },
           written := [(["1"], 2)], writeErrors := 0, inserted := 1 },
          EncoderExit.drained) ∧
      Encoder.stream
        { w := { n := 2, err := true, accepted := 2, delivered := 0 },
          written := [(["1"], 2)], writeErrors := 0, inserted := 1 } = [] := by
  constructor
  · decide
  · decide

/-! ## Lemmas: `Dump` -/

theorem dumpTables_loop_none_iff (run : Run) (tables : List String) :
    dumpTables.loop run tables = none ↔ ∀ t ∈ tables, run.ReadTable t = none := by
  induction tables with
  | nil => simp [dumpTables.loop]
  | cons tbl rest ih =>
    unfold dumpTables.loop
    cases h : run.ReadTable tbl with
    | none => simp [ih, h]
    | some err => simp [Wrap, h]

theorem dumpTables_loop_fail (run : Run) (launched : List String) (tbl : String)
    (rest : List String) (err : String) (hl : ∀ t ∈ launched, run.ReadTable t = none)
    (ht : run.ReadTable tbl = some err) :
    dumpTables.loop run (launched ++ tbl :: rest) = Wrap (some err) "" := by
  induction launched with
  | nil => simp [dumpTables.loop, ht]
  | cons a l ih =>
    have ha : run.ReadTable a = none := hl a (List.mem_cons_self _ _)
    simp only [List.cons_append, dumpTables.loop, ha]
    exact ih (fun t h => hl t (List.mem_cons_of_mem _ h))

theorem Dump_none_iff (run : Run) :
    Dump run = none ↔ dumpStructure run = none ∧
      ∃ tables, run.GetTables = Except.ok tables ∧ ∀ t ∈ tables, run.ReadTable t = none := by
  unfold Dump
  cases hs : dumpStructure run with
  | some err => simp
  | none =>
    unfold dumpTables
    cases hg : run.GetTables with
    | error err => simp
    | ok tables => simp [dumpTables_loop_none_iff]

theorem dumpTables_loop_congr (run run' : Run) (h : run'.ReadTable = run.ReadTable)
    (tables : List String) : dumpTables.loop run' tables = dumpTables.loop run tables := by
  induction tables with
  | nil => rfl
  | cons tbl rest ih =>
    simp only [dumpTables.loop]
    rw [ih, h]

theorem Dump_load_irrelevant (run : Run) (load : String → Option String) :
    Dump { run with dumpTable := load } = Dump run := by
  have hs : dumpStructure { run with dumpTable := load } = dumpStructure run := rfl
  have ht : dumpTables { run with dumpTable := load } = dumpTables run := by
    simp only [dumpTables]
    split
    · rfl
    · exact dumpTables_loop_congr run { run with dumpTable := load } rfl _
  unfold Dump
  rw [hs, ht]

theorem Inv_init (run : Run) : Inv run DumpState.init := by
  simp [Inv, DumpState.init]

theorem stepMain_inv (run : Run) (s s' : DumpState) (hinv : Inv run s)
    (hstep : stepMain run s = some s') : Inv run s' := by
  unfold stepMain at hstep
  cases hm : s.main with
  | start =>
    rw [hm] at hstep
    simp only [Inv, hm] at hinv
    cases hs : dumpStructure run with
    | some err =>
      simp only [hs, Option.some.injEq] at hstep
      subst hstep
      simp [Inv, Dump, hs, hinv]
    | none =>
      simp only [hs, Option.some.injEq] at hstep
      subst hstep
      simp [Inv, hs, hinv]
  | getTables =>
    rw [hm] at hstep
    simp only [Inv, hm] at hinv
    obtain ⟨hds, hwg, hrun, hw, hsig, hfin⟩ := hinv
    cases hg : run.GetTables with
    | error err =>
      simp only [hg, Option.some.injEq] at hstep
      subst hstep
      simp [Inv, Dump, dumpTables, hds, hg, hw, hsig]
    | ok tables =>
      simp only [hg, Option.some.injEq] at hstep
      subst hstep
      simp only [Inv]
      exact ⟨hds, [], by simpa using hg, by simp, by simp [hrun, hfin], by simp [hwg, hrun],
        hw, hsig⟩
  | loop rest =>
    rw [hm] at hstep
    simp only [Inv, hm] at hinv
    obtain ⟨hds, launched, hg, hl, hperm, hwg, hw, hsig⟩ := hinv
    cases rest with
    | nil =>
      simp only [Option.some.injEq] at hstep
      subst hstep
      simp only [Inv]
      refine ⟨hds, launched, by simpa using hg, hl, hperm, by simpa using hwg, ?_⟩
      simp [hsig]
    | cons tbl rest =>
      cases hr : run.ReadTable tbl with
      | some err =>
        simp only [hr, Option.some.injEq] at hstep
        subst hstep
        have hd : Dump run = Wrap (some err) "" := by
          simp only [Dump, hds, dumpTables, hg]
          exact dumpTables_loop_fail run launched tbl rest err hl hr
        simp only [Wrap, Option.map_some'] at hd
        simp [Inv, Wrap, hd, hw, hsig]
      | none =>
        simp only [hr, Option.some.injEq] at hstep
        subst hstep
        simp only [Inv]
        refine ⟨hds, launched ++ [tbl], by simpa using hg, ?_, ?_, ?_, hw, hsig⟩
        · intro t ht
          rcases List.mem_append.1 ht with h | h
          · exact hl t h
          · rw [List.mem_singleton.1 h]; exact hr
        · rw [List.cons_append]
          exact (List.Perm.cons tbl hperm).trans (List.perm_append_singleton tbl launched).symm
        · simp only [List.length_cons] at hwg ⊢
          rw [hwg]
          push_cast
          ring
  | returned err =>
    rw [hm] at hstep
    cases hstep

theorem step_inv (run : Run) (s s' : DumpState) (e : Event) (hinv : Inv run s)
    (hstep : step run s e = some s') : Inv run s' := by
  cases e with
  | main => exact stepMain_inv run s s' hinv hstep
  | pipeline tbl =>
    simp only [step] at hstep
    by_cases hmem : tbl ∈ s.running
    · simp only [hmem, if_true, Option.some.injEq] at hstep
      subst hstep
      have hperm : ∀ l : List String, (s.running ++ s.finished).Perm l →
          (s.running.erase tbl ++ tbl :: s.finished).Perm l := by
        intro l hl
        refine List.Perm.trans ?_ hl
        refine List.Perm.trans List.perm_middle ?_
        rw [← List.cons_append]
        exact List.Perm.append_right _ (List.perm_cons_erase hmem).symm
      have hlen : ((s.running.erase tbl).length : Int) = s.running.length - 1 := by
        have hpos : 0 < s.running.length := List.length_pos_of_mem hmem
        rw [List.length_erase_of_mem hmem]
        omega
      cases hm : s.main with
      | start =>
        simp only [Inv, hm] at hinv
        rw [hinv.2.1] at hmem
        cases hmem
      | getTables =>
        simp only [Inv, hm] at hinv
        rw [hinv.2.2.1] at hmem
        cases hmem
      | loop rest =>
        simp only [Inv, hm] at hinv ⊢
        obtain ⟨hds, launched, hg, hl, hp, hwg, hw, hsig⟩ := hinv
        exact ⟨hds, launched, hg, hl, hperm _ hp, by rw [hwg, hlen]; ring, hw, hsig⟩
      | returned err =>
        cases err with
        | some err =>
          simp only [Inv, hm] at hinv ⊢
          exact hinv
        | none =>
          simp only [Inv, hm] at hinv ⊢
          obtain ⟨hds, tables, hg, hl, hp, hwg, hcase⟩ := hinv
          refine ⟨hds, tables, hg, hl, hperm _ hp, by rw [hwg, hlen], ?_⟩
          rcases hcase with h | h
          · exact Or.inl h
          · rw [h.2.2] at hmem
            cases hmem
    · simp [hmem] at hstep
  | waiter =>
    simp only [step] at hstep
    cases hw : s.waiter with
    | absent => simp [hw] at hstep
    | sent => simp [hw] at hstep
    | waiting =>
      by_cases hwg : s.wg = 0
      · simp only [hw, hwg, if_true, Option.some.injEq] at hstep
        subst hstep
        cases hm : s.main with
        | start => simp only [Inv, hm] at hinv; rw [hinv.2.2.1] at hw; cases hw
        | getTables => simp only [Inv, hm] at hinv; rw [hinv.2.2.2.1] at hw; cases hw
        | loop rest =>
          simp only [Inv, hm] at hinv
          obtain ⟨-, launched, -, -, -, -, hw', -⟩ := hinv
          rw [hw'] at hw
          cases hw
        | returned err =>
          cases err with
          | some err => simp only [Inv, hm] at hinv; rw [hinv.2.1] at hw; cases hw
          | none =>
            simp only [Inv, hm] at hinv ⊢
            obtain ⟨hds, tables, hg, hl, hp, hwg', hcase⟩ := hinv
            have hnil : s.running = [] := by
              rw [hwg] at hwg'
              exact List.length_eq_zero.1 (by exact_mod_cast hwg'.symm)
            have hsig : s.signals = 0 := by
              rcases hcase with h | h
              · exact h.2
              · rw [h.1] at hw; cases hw
            refine ⟨hds, tables, hg, hl, hp, ?_, ?_⟩
            · rw [hwg] at hwg'; exact hwg'
            · simp [hsig, hnil]
      · simp [hw, hwg] at hstep

theorem exec_inv (run : Run) (events : List Event) :
    ∀ s s' : DumpState, Inv run s → exec run s events = some s' → Inv run s' := by
  induction events with
  | nil =>
    intro s s' hinv h
    simp only [exec, Option.some.injEq] at h
    rw [← h]; exact hinv
  | cons e rest ih =>
    intro s s' hinv h
    simp only [exec] at h
    cases hs : step run s e with
    | none => rw [hs] at h; cases h
    | some s1 =>
      rw [hs] at h
      exact ih s1 s' (step_inv run s s1 e hinv hs) h

theorem step_movesLeft (run : Run) (s s' : DumpState) (e : Event)
    (hstep : step run s e = some s') : movesLeft run s' + 1 ≤ movesLeft run s := by
  cases e with
  | main =>
    simp only [step, stepMain] at hstep
    cases hm : s.main with
    | start =>
      rw [hm] at hstep
      cases hs : dumpStructure run with
      | some err =>
        simp only [hs, Option.some.injEq] at hstep
        subst hstep
        simp only [movesLeft, hm]
        omega
      | none =>
        simp only [hs, Option.some.injEq] at hstep
        subst hstep
        simp only [movesLeft, hm]
        omega
    | getTables =>
      rw [hm] at hstep
      cases hg : run.GetTables with
      | error err =>
        simp only [hg, Option.some.injEq] at hstep
        subst hstep
        simp only [movesLeft, hm]
        omega
      | ok tables =>
        simp only [hg, Option.some.injEq] at hstep
        subst hstep
        simp only [movesLeft, hm, Run.tableCount, hg]
        omega
    | loop rest =>
      rw [hm] at hstep
      cases rest with
      | nil =>
        simp only [Option.some.injEq] at hstep
        subst hstep
        simp only [movesLeft, hm, List.length_nil, if_true]
        split <;> omega
      | cons tbl rest =>
        cases hr : run.ReadTable tbl with
        | some err =>
          simp only [hr, Option.some.injEq] at hstep
          subst hstep
          simp only [movesLeft, hm, List.length_cons]
          omega
        | none =>
          simp only [hr, Option.some.injEq] at hstep
          subst hstep
          simp only [movesLeft, hm, List.length_cons]
          omega
    | returned err =>
      rw [hm] at hstep
      cases hstep
  | pipeline tbl =>
    simp only [step] at hstep
    by_cases hmem : tbl ∈ s.running
    · simp only [hmem, if_true, Option.some.injEq] at hstep
      subst hstep
      have hpos : 0 < s.running.length := List.length_pos_of_mem hmem
      simp only [movesLeft, List.length_erase_of_mem hmem]
      omega
    · simp [hmem] at hstep
  | waiter =>
    simp only [step] at hstep
    cases hw : s.waiter with
    | absent => simp [hw] at hstep
    | sent => simp [hw] at hstep
    | waiting =>
      by_cases hwg : s.wg = 0
      · simp only [hw, hwg, if_true, Option.some.injEq] at hstep
        subst hstep
        simp [movesLeft, hw]
      · simp [hw, hwg] at hstep

theorem exec_movesLeft (run : Run) (events : List Event) :
    ∀ s s' : DumpState, exec run s events = some s' →
      events.length + movesLeft run s' ≤ movesLeft run s := by
  induction events with
  | nil =>
    intro s s' h
    simp only [exec, Option.some.injEq] at h
    rw [← h]; simp
  | cons e rest ih =>
    intro s s' h
    simp only [exec] at h
    cases hs : step run s e with
    | none => rw [hs] at h; cases h
    | some s1 =>
      rw [hs] at h
      have h1 := ih s1 s' h
      have h2 := step_movesLeft run s s1 e hs
      simp only [List.length_cons]
      omega

theorem Inv_returned (run : Run) (s : DumpState) (err : Option String) (hinv : Inv run s)
    (hm : s.main = MainPc.returned err) : err = Dump run := by
  cases err with
  | some err =>
    simp only [Inv, hm] at hinv
    exact hinv.1.symm
  | none =>
    simp only [Inv, hm] at hinv
    obtain ⟨hds, tables, hg, hl, -⟩ := hinv
    exact ((Dump_none_iff run).2 ⟨hds, tables, hg, hl⟩).symm

theorem Inv_signals_le (run : Run) (s : DumpState) (hinv : Inv run s) : s.signals ≤ 1 := by
  cases hm : s.main with
  | start => simp only [Inv, hm] at hinv; omega
  | getTables => simp only [Inv, hm] at hinv; omega
  | loop rest =>
    simp only [Inv, hm] at hinv
    obtain ⟨-, launched, -, -, -, -, -, hsig⟩ := hinv
    omega
  | returned err =>
    cases err with
    | some err => simp only [Inv, hm] at hinv; omega
    | none =>
      simp only [Inv, hm] at hinv
      obtain ⟨-, tables, -, -, -, -, h | h⟩ := hinv <;> omega

theorem Inv_signalled (run : Run) (s : DumpState) (hinv : Inv run s) (hsig : s.signals = 1) :
    Dump run = none ∧ s.main = MainPc.returned none ∧ s.running = [] ∧
      ∃ tables, run.GetTables = Except.ok tables ∧ s.finished.Perm tables := by
  cases hm : s.main with
  | start => simp only [Inv, hm] at hinv; omega
  | getTables => simp only [Inv, hm] at hinv; omega
  | loop rest =>
    simp only [Inv, hm] at hinv
    obtain ⟨-, launched, -, -, -, -, -, h0⟩ := hinv
    omega
  | returned err =>
    cases err with
    | some err => simp only [Inv, hm] at hinv; omega
    | none =>
      have hd := (Inv_returned run s none hinv hm).symm
      simp only [Inv, hm] at hinv
      obtain ⟨-, tables, hg, -, hp, -, h | h⟩ := hinv
      · omega
      · refine ⟨hd, rfl, h.2.2, tables, hg, ?_⟩
        rw [h.2.2] at hp
        simpa using hp

theorem Inv_unsignalled (run : Run) (s : DumpState) (hinv : Inv run s)
    (hd : Dump run ≠ none) : s.signals = 0 := by
  have hle := Inv_signals_le run s hinv
  by_cases h1 : s.signals = 1
  · exact absurd (Inv_signalled run s hinv h1).1 hd
  · omega

theorem Inv_quiescent (run : Run) (s : DumpState) (hinv : Inv run s) (hd : Dump run = none)
    (hq : ∀ e, step run s e = none) : s.signals = 1 := by
  have hmain := hq Event.main
  simp only [step, stepMain] at hmain
  cases hm : s.main with
  | start =>
    rw [hm] at hmain
    cases hs : dumpStructure run <;> simp [hs] at hmain
  | getTables =>
    rw [hm] at hmain
    cases hg : run.GetTables <;> simp [hg] at hmain
  | loop rest =>
    rw [hm] at hmain
    cases rest with
    | nil => simp at hmain
    | cons tbl rest => cases hr : run.ReadTable tbl <;> simp [hr] at hmain
  | returned err =>
    cases err with
    | some err =>
      simp only [Inv, hm] at hinv
      rw [hinv.1] at hd
      cases hd
    | none =>
      simp only [Inv, hm] at hinv
      obtain ⟨-, tables, -, -, -, hwg, hcase⟩ := hinv
      have hnil : s.running = [] := by
        cases hrun : s.running with
        | nil => rfl
        | cons a l =>
          have := hq (Event.pipeline a)
          simp [step, hrun] at this
      rcases hcase with h | h
      · have := hq Event.waiter
        rw [hnil] at hwg
        simp [step, h.1, hwg] at this
      · exact h.2.1

theorem exec_complete (run : Run) :
    ∀ (n : Nat) (s : DumpState), movesLeft run s ≤ n →
      ∃ events s', exec run s events = some s' ∧ ∀ e, step run s' e = none := by
  intro n
  induction n with
  | zero =>
    intro s hn
    refine ⟨[], s, rfl, fun e => ?_⟩
    cases hs : step run s e with
    | none => rfl
    | some s1 =>
      have := step_movesLeft run s s1 e hs
      omega
  | succ n ih =>
    intro s hn
    by_cases hq : ∀ e, step run s e = none
    · exact ⟨[], s, rfl, hq⟩
    · push_neg at hq
      obtain ⟨e, he⟩ := hq
      cases hs : step run s e with
      | none => exact absurd hs he
      | some s1 =>
        have hlt := step_movesLeft run s s1 e hs
        obtain ⟨events, s', hex, hq'⟩ := ih s1 (by omega)
        exact ⟨e :: events, s', by simp [exec, hs, hex], hq'⟩

/-! ## The relay stage of `anonymiser.ReadTable` -/

/-- C1: for a table with a configured mapping (a Go map, so each column is
configured once), every row sent by `anonymiser.ReadTable` holds, in each column
whose spec is `literal:` followed by some text, exactly that text as a string,
whatever the source row held. -/
theorem ReadTable_literal (find : String → Option Table) (Functions : List (String × Faker))
    (source : String → SourceRead) (seed : Nat) (tableName : String) (table : Table)
    (column text : String) (out : Row)
    (hfind : find tableName = some table)
    (hmap : (table.Anonymise.map Prod.fst).Nodup)
    (hcol : (column, literalPrefix ++ text) ∈ table.Anonymise)
    (hout : out ∈ (ReadTable find Functions source seed tableName).1) :
    out column = some (Value.string text) := by
  have hne : table.Anonymise.length ≠ 0 := by
    intro h
    rw [List.length_eq_zero.1 h] at hcol
    cases hcol
  simp only [ReadTable, hfind, hne, if_false] at hout
  obtain ⟨row, s, -, rfl⟩ := relay_mem _ _ _ _ _ hout
  rw [anonymiseRow_literal Functions _ hmap _ column _ hcol (hasPrefix_append _ _),
    trimPrefix_append]

/-- C1 at a concrete input: with the mapping `name ↦ literal:REDACTED` the row
sent for a source row holding `Ann` holds `REDACTED`. -/
theorem ReadTable_literal_witness :
    (anonymiseRow [] [("name", "literal:REDACTED")]
      (Row.empty.set "name" (Value.string "Ann"), 0)).1 "name" =
        some (Value.string "REDACTED") :=
  ReadTable_literal
    (fun _ => some { Name := "users", Anonymise := [("name", "literal:REDACTED")] }) []
    (fun _ => { rows := [Row.empty.set "name" (Value.string "Ann")], err := none }) 0
    "users" { Name := "users", Anonymise := [("name", "literal:REDACTED")] }
    "name" "REDACTED" _ rfl (by decide) (by decide) (List.mem_cons_self _ _)

/-- C2: `anonymiser.ReadTable` sends one row per source row, in order, and in
each of them every column that is absent from the table's mapping, or whose
configured spec is neither a `literal:` override nor the name of a registered
generator, holds the source value unchanged. -/
theorem ReadTable_passthrough (find : String → Option Table)
    (Functions : List (String × Faker)) (source : String → SourceRead) (seed : Nat)
    (tableName : String) :
    List.Forall₂
      (fun src out => ∀ column : String,
        (∀ table spec, find tableName = some table → (column, spec) ∈ table.Anonymise →
          HasPrefix spec literalPrefix = false ∧ spec ∉ Functions.map Prod.fst) →
        out column = src column)
      (source tableName).rows (ReadTable find Functions source seed tableName).1 := by
  unfold ReadTable
  cases hfind : find tableName with
  | none => exact forall₂_same _ (fun _ _ _ => rfl) _
  | some table =>
    by_cases hlen : table.Anonymise.length = 0
    · simp only [hlen, if_true]
      exact forall₂_same _ (fun _ _ _ => rfl) _
    · simp only [hlen, if_false]
      apply relay_forall₂
      intro row s column h
      apply anonymiseRow_frame
      intro spec hs hr
      have := h table spec rfl hs
      rcases hr with hr | hr
      · rw [this.1] at hr; cases hr
      · exact this.2 hr

/-- C3, as stated, fails: with the mapping `ghost ↦ literal:x` and a source row
whose only column is `id`, the row sent by `anonymiser.ReadTable` has the
column `ghost`, which the source row does not have. -/
theorem ReadTable_adds_column :
    ((ReadTable (fun _ => some { Name := "users", Anonymise := [("ghost", "literal:x")] }) []
        (fun _ => { rows := [Row.empty.set "id" (Value.int64 1)], err := none }) 0
        "users").1.map (fun out => (out "ghost", out "id"))
      = [(some (Value.string "x"), some (Value.int64 1))]) ∧
    (Row.empty.set "id" (Value.int64 1)) "ghost" = none := by
  constructor
  · simp [ReadTable, relay, anonymiseRow, anonymiseStep, HasPrefix, literalPrefix, TrimPrefix,
      Row.set, Row.empty]
  · decide

/-- C3, amended: `anonymiser.ReadTable` sends one row per source row, in order,
and the column names of each sent row are those of its source row together with
every column the relay rewrites (a configured column whose spec is a `literal:`
override or the name of a registered generator); so the two column sets are the
same whenever each rewritten column already occurs in the source row. -/
theorem ReadTable_columns (find : String → Option Table)
    (Functions : List (String × Faker)) (source : String → SourceRead) (seed : Nat)
    (tableName : String) :
    List.Forall₂
      (fun src out =>
        (∀ column : String, (out column).isSome = true ↔
          ((src column).isSome = true ∨
            ∃ table spec, find tableName = some table ∧ (column, spec) ∈ table.Anonymise ∧
              rewrites Functions spec)) ∧
        ((∀ table column spec, find tableName = some table →
            (column, spec) ∈ table.Anonymise → rewrites Functions spec →
            (src column).isSome = true) →
          ∀ column : String, (out column).isSome = (src column).isSome))
      (source tableName).rows (ReadTable find Functions source seed tableName).1 := by
  have key : ∀ src out : Row,
      (∀ column : String, (out column).isSome = true ↔
          ((src column).isSome = true ∨
            ∃ table spec, find tableName = some table ∧ (column, spec) ∈ table.Anonymise ∧
              rewrites Functions spec)) →
      ((∀ table column spec, find tableName = some table →
            (column, spec) ∈ table.Anonymise → rewrites Functions spec →
            (src column).isSome = true) →
          ∀ column : String, (out column).isSome = (src column).isSome) := by
    intro src out h hall column
    rw [Bool.eq_iff_iff, h]
    constructor
    · rintro (h1 | ⟨table, spec, hf, hm, hr⟩)
      · exact h1
      · exact hall table column spec hf hm hr
    · exact Or.inl
  refine List.Forall₂.imp (fun src out h => ⟨h, key src out h⟩) ?_
  unfold ReadTable
  cases hfind : find tableName with
  | none =>
    refine forall₂_same _ (fun row column => ?_) _
    simp
  | some table =>
    by_cases hlen : table.Anonymise.length = 0
    · simp only [hlen, if_true]
      refine forall₂_same _ (fun row column => ?_) _
      have hnil := List.length_eq_zero.1 hlen
      constructor
      · exact Or.inl
      · rintro (h | ⟨t, spec, ht, hm, -⟩)
        · exact h
        · cases ht
          rw [hnil] at hm
          cases hm
    · simp only [hlen, if_false]
      apply relay_forall₂
      intro row s column
      rw [anonymiseRow_isSome]
      constructor
      · rintro (h | ⟨spec, hm, hr⟩)
        · exact Or.inl h
        · exact Or.inr ⟨table, spec, rfl, hm, hr⟩
      · rintro (h | ⟨t, spec, ht, hm, hr⟩)
        · exact Or.inl h
        · cases ht
          exact Or.inr ⟨spec, hm, hr⟩

/-! ## The reader listings -/

/-- C8: for every result set of (name, type) pairs of the table-listing query,
`storage.GetTables` returns, with no error, exactly the names whose type is
`BASE TABLE`, in result-set order; every returned name is listed with that type
and no name listed only with another type (a view) is returned. -/
theorem GetTables_base_tables (rows : List (String × String)) :
    GetTables (Except.ok (rows.map Except.ok)) =
        Except.ok ((rows.filter (fun r => r.2 = "BASE TABLE")).map Prod.fst) ∧
      ∀ name, name ∈ (rows.filter (fun r => r.2 = "BASE TABLE")).map Prod.fst ↔
        (name, "BASE TABLE") ∈ rows := by
  constructor
  · simp [GetTables, GetTables_loop_ok]
  · intro name
    simp only [List.mem_map, List.mem_filter, decide_eq_true_eq]
    constructor
    · rintro ⟨⟨n, t⟩, ⟨hm, ht⟩, hn⟩
      simp only at ht hn
      subst ht hn
      exact hm
    · intro h
      exact ⟨(name, "BASE TABLE"), ⟨h, rfl⟩, rfl⟩

/-- C9, as stated, fails: for a table name for which the column query yields no
rows (no such table), `storage.GetColumns` returns the empty column list and no
error. -/
theorem GetColumns_missing_table : GetColumns (Except.ok []) = Except.ok [] := by
  rfl

/-- C9, amended: `storage.GetColumns` returns an error only when the column
query or the scan of one of its rows fails (then that error); whenever every row
scans it returns the column names in the order the query yields them, which for
a table name without rows (a table that does not exist) is the empty list and no
error. -/
theorem GetColumns_result (query : Except String (List (Except String String))) :
    (∀ err, GetColumns query = Except.error err →
      query = Except.error err ∨ ∃ rows, query = Except.ok rows ∧ Except.error err ∈ rows) ∧
    (∀ columns : List String, query = Except.ok (columns.map Except.ok) →
      GetColumns query = Except.ok columns) := by
  constructor
  · intro err h
    cases query with
    | error e =>
      simp only [GetColumns, Except.error.injEq] at h
      exact Or.inl (by rw [h])
    | ok rows => exact Or.inr ⟨rows, rfl, GetColumns_loop_error rows [] err h⟩
  · intro columns hq
    subst hq
    simp [GetColumns, GetColumns_loop_ok]

/-! ## Value encoding -/

/-- C4: `toStringValue` succeeds on every value of the closed set; an int64
gives its canonical base-10 decimal text, a bool gives `true` or `false`, a
string gives itself, a byte sequence gives the same bytes as text, and null
gives the four-character text `NULL`. -/
theorem toStringValue_closed (fmt : Formatters) (i : Int) (s : String) (b : List Char)
    (hlo : -2 ^ 63 ≤ i) (hhi : i < 2 ^ 63) :
    (∀ v : Value, v.inClosedSet = true → ∃ text, toStringValue fmt v = Except.ok text) ∧
    toStringValue fmt (Value.int64 i) = Except.ok (canonicalDecimal i) ∧
    toStringValue fmt (Value.bool true) = Except.ok "true" ∧
    toStringValue fmt (Value.bool false) = Except.ok "false" ∧
    toStringValue fmt (Value.string s) = Except.ok s ∧
    toStringValue fmt (Value.bytes b) = Except.ok (String.mk b) ∧
    toStringValue fmt Value.nil = Except.ok "NULL" ∧ "NULL".length = 4 := by
  refine ⟨toStringValue_closed_ok fmt, ?_, rfl, rfl, rfl, rfl, rfl, by decide⟩
  simp only [toStringValue]
  rw [FormatInt_canonical i hlo hhi]

/-- C4 at a concrete input: the int64 `-42` is in range and is rendered as the
text `-42`. -/
theorem toStringValue_closed_witness :
    (-2 ^ 63 ≤ (-42 : Int) ∧ (-42 : Int) < 2 ^ 63) ∧
      toStringValue Formatters.decimal (Value.int64 (-42)) = Except.ok "-42" := by
  refine ⟨⟨by decide, by decide⟩, ?_⟩
  have h := (toStringValue_closed Formatters.decimal (-42) "a" ['b'] (by decide) (by decide)).2.1
  rw [h]
  simp [canonicalDecimal, decimalDigits, digitChar]

/-- C5, as stated, fails: a `uint8` is outside the closed set, yet
`toStringValue` returns its decimal text and no error. -/
theorem toStringValue_uint8_ok :
    (Value.uint8 7).inClosedSet = false ∧
      toStringValue Formatters.decimal (Value.uint8 7) = Except.ok "7" := by
  constructor
  · rfl
  · rfl

/-- C5, amended: `toStringValue` returns an error exactly for the values whose
dynamic type, after following non-nil `*interface{}` pointers, is none of the
types named by its type switch (nil, uint8, int64, float64, bool, string,
byte sequence, timestamp, pointer to interface), and then the error is
`could not parse type`; it returns no error for any value of the closed set. -/
theorem toStringValue_error_iff (fmt : Formatters) :
    (∀ v : Value, (∃ msg, toStringValue fmt v = Except.error (Failure.error msg)) ↔
      ∃ goType, v.pointee = Value.other goType) ∧
    (∀ v : Value, ∀ msg, toStringValue fmt v = Except.error (Failure.error msg) →
      msg = "could not parse type") ∧
    (∀ v : Value, v.inClosedSet = true → ∃ text, toStringValue fmt v = Except.ok text) := by
  refine ⟨?_, ?_, toStringValue_closed_ok fmt⟩
  · intro v
    induction v with
    | ptr target ih => simpa [toStringValue, Value.pointee] using ih
    | other goType => simp [toStringValue, Value.pointee]
    | _ => simp [toStringValue, Value.pointee]
  · intro v
    induction v with
    | ptr target ih => simpa [toStringValue] using ih
    | other goType =>
      intro msg h
      simp only [toStringValue, Except.error.injEq, Failure.error.injEq] at h
      exact h.symm
    | _ => intro msg h; simp [toStringValue] at h

/-! ## The encoder of `insertIntoTable` -/

/-- C6, as stated, fails: in a run whose structure stage succeeds and in which
the reader's `ReadTable` returns an error for the table `a`, `Dump` returns
that error, wrapped. -/
theorem Dump_returns_read_error :
    dumpStructure Run.readFails = none ∧
      Dump Run.readFails = some ": connection lost" := by
  constructor
  · rfl
  · rfl

/-- C6, amended: `Dump` returns nil exactly when the structure stage succeeds,
`GetTables` succeeds and the reader's `ReadTable` returns nil for every listed
table; otherwise it returns the error of the first of these to fail (the error
of `ReadTable` wrapped with an empty message); that value is what the caller's
goroutine returns under every interleaving with the per-table goroutines, and a
failure of a table's load (`dumpTable`) never changes it. -/
theorem Dump_return (run : Run) :
    (Dump run = none ↔ dumpStructure run = none ∧
      ∃ tables, run.GetTables = Except.ok tables ∧ ∀ t ∈ tables, run.ReadTable t = none) ∧
    (∀ err, dumpStructure run = some err → Dump run = some err) ∧
    (∀ err, dumpStructure run = none → run.GetTables = Except.error err →
      Dump run = some err) ∧
    (∀ launched tbl rest err, dumpStructure run = none →
      run.GetTables = Except.ok (launched ++ tbl :: rest) →
      (∀ t ∈ launched, run.ReadTable t = none) → run.ReadTable tbl = some err →
      Dump run = some (": " ++ err)) ∧
    (∀ events s err, exec run DumpState.init events = some s →
      s.main = MainPc.returned err → err = Dump run) ∧
    (∀ load : String → Option String, Dump { run with dumpTable := load } = Dump run) := by
  refine ⟨Dump_none_iff run, ?_, ?_, ?_, ?_, Dump_load_irrelevant run⟩
  · intro err hs
    simp [Dump, hs]
  · intro err hs hg
    simp [Dump, dumpTables, hs, hg]
  · intro launched tbl rest err hs hg hl ht
    simp only [Dump, dumpTables, hs, hg]
    rw [dumpTables_loop_fail run launched tbl rest err hl ht]
    simp [Wrap]
  · intro events s err h hm
    exact Inv_returned run s err (exec_inv run events _ s (Inv_init run) h) hm

/-- C7, as stated, fails: in a run whose structure stage succeeds and in which
the reader's `ReadTable` returns an error for the table `a`, no interleaving
ever sends on `done`; the run that lets every goroutine finish ends with the
goroutine of `a` finished, `Dump` returned and no signal sent. -/
theorem Dump_no_signal_on_read_error :
    dumpStructure Run.readFails = none ∧
      (∀ events s, exec Run.readFails DumpState.init events = some s → s.signals = 0) ∧
      exec Run.readFails DumpState.init
          [Event.main, Event.main, Event.main, Event.pipeline "a"] =
        some { main := MainPc.returned (some ": connection lost"), wg := 1, running := [],
               finished := ["a"], failed := [], waiter := WaiterPc.absent, signals := 0 } ∧
      ∀ e, step Run.readFails
        { main := MainPc.returned (some ": connection lost"), wg := 1, running := [],
          finished := ["a"], failed := [], waiter := WaiterPc.absent, signals := 0 } e = none := by
  refine ⟨rfl, ?_, by decide, ?_⟩
  · intro events s h
    exact Inv_unsignalled _ s (exec_inv _ events _ s (Inv_init _) h) (by decide)
  · intro e
    cases e <;> simp [step, stepMain]

/-- C7, amended: in every run of `Dump`, under every interleaving, at most one
value is sent on `done`; when it has been sent, `Dump` has returned nil (the
structure stage, `GetTables` and every `ReadTable` succeeded), no per-table
goroutine is still running and the finished ones are exactly those of the
tables `GetTables` returned, whether or not their `dumpTable` failed; when
`Dump` returns an error nothing is ever sent; when `Dump` returns nil, every run
in which no goroutine can move any more has sent exactly one value; every run
makes at most `2 * tables + 6` moves and can be continued until no goroutine
can move any more. -/
theorem Dump_signal (run : Run) (events : List Event) (s : DumpState)
    (h : exec run DumpState.init events = some s) :
    s.signals ≤ 1 ∧
    (s.signals = 1 → Dump run = none ∧ s.main = MainPc.returned none ∧ s.running = [] ∧
      ∃ tables, run.GetTables = Except.ok tables ∧ s.finished.Perm tables) ∧
    (Dump run ≠ none → s.signals = 0) ∧
    (Dump run = none → (∀ e, step run s e = none) → s.signals = 1) ∧
    events.length ≤ 2 * run.tableCount + 6 ∧
    (∃ more s', exec run s more = some s' ∧ (∀ e, step run s' e = none) ∧
      (Dump run = none → s'.signals = 1)) := by
  have hinv := exec_inv run events _ s (Inv_init run) h
  refine ⟨Inv_signals_le run s hinv, Inv_signalled run s hinv, Inv_unsignalled run s hinv,
    Inv_quiescent run s hinv, ?_, ?_⟩
  · have hm := exec_movesLeft run events _ s h
    simp only [movesLeft, DumpState.init, List.length_nil] at hm
    simp at hm
    omega
  · obtain ⟨more, s', hex, hq⟩ := exec_complete run _ s (le_refl _)
    exact ⟨more, s', hex, hq, fun hd => Inv_quiescent run s' (exec_inv run more s s' hinv hex) hd hq⟩

/-- C7 at a concrete input: tables `a` and `b`, the load of `a` fails; after
both goroutines finish and the waiting goroutine moves, exactly one value has
been sent and the failure of `a` has been logged. -/
theorem Dump_signal_witness :
    exec Run.loadFails DumpState.init
        [Event.main, Event.main, Event.main, Event.pipeline "a", Event.main, Event.main,
          Event.pipeline "b", Event.waiter] =
      some { main := MainPc.returned none, wg := 0, running := [], finished := ["b", "a"],
             failed := ["a"], waiter := WaiterPc.sent, signals := 1 } ∧
    (1 : Nat) ≤ 1 ∧ Dump Run.loadFails = none :=
  ⟨by decide,
    (Dump_signal Run.loadFails
      [Event.main, Event.main, Event.main, Event.pipeline "a", Event.main, Event.main,
        Event.pipeline "b", Event.waiter]
      { main := MainPc.returned none, wg := 0, running := [], finished := ["b", "a"],
        failed := ["a"], waiter := WaiterPc.sent, signals := 1 } (by decide)).1,
    ((Dump_signal Run.loadFails
      [Event.main, Event.main, Event.main, Event.pipeline "a", Event.main, Event.main,
        Event.pipeline "b", Event.waiter]
      { main := MainPc.returned none, wg := 0, running := [], finished := ["b", "a"],
        failed := ["a"], waiter := WaiterPc.sent, signals := 1 } (by decide)).2.1 rfl).1⟩

end Klepto
